import Mathlib

/-!
Shallow embedding of the pman manifest-resolution engine and its project
lifecycle operations (repository ghetzel/pman, files manifest.go / git.go /
main.go), together with theorems settling the frozen claims about it.

Modelling conventions:
* Go strings are Lean `String`s, processed through their `List Char` data.
  Manifest strings are assumed free of characters that Go's net/url would
  percent-encode, of `%`-escapes and of control characters; within that
  fragment the URL model below follows net/url's Parse/String exactly.
* The process environment and the invoking user's home directory are an
  explicit `Env` value (the Go code reads them through os.ExpandEnv and
  fileutil.MustExpandUser).
* The external git/filesystem collaborator is an explicit `GitWorld` of
  deterministic oracles, and the lifecycle operations additionally return
  the trace of git invocations they perform, so that "performs a checkout"
  style claims are expressible.
* Errors (Go `error`) are `Option String`: `none` is nil, `some e` is an
  error whose `Error()` string is `e`.
-/

/-! ## Go string primitives (strings.Split, HasPrefix, HasSuffix, sliceutil.OrString) -/

/-- Does the list begin with the given prefix list? (Go strings.HasPrefix,
on character lists.) -/
def leadsWith : List Char → List Char → Bool
  | _, [] => true
  | [], _ :: _ => false
  | c :: cs, p :: ps => c = p && leadsWith cs ps

/-- Go strings.HasPrefix. -/
def goStartsWith (s pre : String) : Bool :=
  leadsWith s.data pre.data

/-- Go strings.HasSuffix: s ends with suf. -/
def goEndsWith (s suf : String) : Bool :=
  leadsWith s.data.reverse suf.data.reverse

/-- Split a character list at every occurrence of `sep`
(Go strings.Split with a one-character separator). `acc` holds the
characters of the current field, in reverse. -/
def goSplitAux (sep : Char) (acc : List Char) : List Char → List (List Char)
  | [] => [acc.reverse]
  | c :: cs => if c = sep then acc.reverse :: goSplitAux sep [] cs else goSplitAux sep (c :: acc) cs

/-- Go strings.Split(s, sep) for a one-character separator. -/
def goSplit (s : String) (sep : Char) : List String :=
  (goSplitAux sep [] s.data).map String.mk

/-- Go strings.Cut(s, sep) for a one-character separator: characters before
the first occurrence, characters after it, and whether it was found. -/
def cutChar (sep : Char) : List Char → List Char × List Char × Bool
  | [] => ([], [], false)
  | c :: cs =>
      if c = sep then ([], cs, true)
      else
        let r := cutChar sep cs
        (c :: r.1, r.2.1, r.2.2)

/-- Split at the last occurrence of `sep` (Go strings.LastIndex):
`some (before, after)` if present. -/
def cutLastChar (sep : Char) (s : List Char) : Option (List Char × List Char) :=
  match cutChar sep s.reverse with
  | (befR, aftR, true) => some (aftR.reverse, befR.reverse)
  | (_, _, false) => none

/-- Join strings with a separator (Go strings.Join). -/
def goJoinSep (sep : String) : List String → String
  | [] => ""
  | [x] => x
  | x :: xs => x ++ sep ++ goJoinSep sep xs

/-- sliceutil.OrString of two strings: the first one that is non-empty. -/
def orString (a b : String) : String :=
  if a ≠ "" then a else b

/-! ## filepath.Join / filepath.Clean (Linux path semantics) -/

/-- One step of Go path.Clean over already-split components (`acc` is the
output stack, most recent first): drop `.` and empty components upstream,
let `..` pop a previous component, keep `..` that cannot pop. -/
def cleanStep (rooted : Bool) (acc : List String) (c : String) : List String :=
  if c = ".." then
    match acc with
    | [] => if rooted then [] else [".."]
    | a :: rest => if a = ".." then c :: acc else rest
  else c :: acc

/-- Go filepath.Clean on Linux: lexical cleaning of a slash-separated path. -/
def goPathClean (p : String) : String :=
  if p = "" then "."
  else
    let rooted := goStartsWith p "/"
    let comps := (goSplit p '/').filter fun c => !(c == "" || c == ".")
    let out := (comps.foldl (cleanStep rooted) []).reverse
    if out = [] then (if rooted then "/" else ".")
    else (if rooted then "/" else "") ++ goJoinSep "/" out

/-- Go filepath.Join of two elements on Linux: skip leading empty elements,
join the rest with "/" and Clean the result. -/
def goFilepathJoin (a b : String) : String :=
  if a ≠ "" then goPathClean (a ++ "/" ++ b)
  else if b ≠ "" then goPathClean b
  else ""

/-! ## net/url model: Parse and String on the escape-free fragment -/

/-- A parsed URL, following Go's net/url.URL on URLs without user-info
escaping, percent-escapes or port validation. `opq` is URL.Opaque. -/
structure GoUrl where
  scheme : String
  opq : String
  user : Option String
  host : String
  omitHost : Bool
  path : String
  forceQuery : Bool
  rawQuery : String
  fragment : String
deriving Repr, DecidableEq

def isSchemeAlpha (c : Char) : Bool :=
  (decide ('a' ≤ c) && decide (c ≤ 'z')) || (decide ('A' ≤ c) && decide (c ≤ 'Z'))

def isDigitChar (c : Char) : Bool :=
  decide ('0' ≤ c) && decide (c ≤ '9')

/-- ASCII lowering of one character (Go strings.ToLower on scheme names). -/
def asciiLowerChar (c : Char) : Char :=
  if decide ('A' ≤ c) && decide (c ≤ 'Z') then Char.ofNat (c.toNat + 32) else c

/-- Go net/url getScheme: scan `s` for `scheme ":"`. `none` is the
"missing protocol scheme" error (a leading `:`); `some (scheme, rest)`
otherwise, with `scheme = []` when `orig` has no scheme prefix. -/
def getSchemeAux (orig : List Char) (acc : List Char) : List Char → Option (List Char × List Char)
  | [] => some ([], orig)
  | c :: cs =>
      if isSchemeAlpha c then getSchemeAux orig (acc ++ [c]) cs
      else if isDigitChar c || c == '+' || c == '-' || c == '.' then
        if acc = [] then some ([], orig) else getSchemeAux orig (acc ++ [c]) cs
      else if c = ':' then
        if acc = [] then none else some (acc, cs)
      else some ([], orig)

/-- Go net/url parseAuthority without validation: user-info before the
last `@`, host after it. -/
def parseAuthorityGo (auth : List Char) : Option String × String :=
  match cutLastChar '@' auth with
  | some (ui, host) => (some (String.mk ui), String.mk host)
  | none => (none, String.mk auth)

/-- Go net/url parse(rest, viaRequest := false) after the fragment has been
split off.  Mirrors the branch structure of the Go function; `none` is a
parse error ("missing protocol scheme" or "first path segment in URL cannot
contain colon"). -/
def urlParseInner (s : List Char) : Option GoUrl :=
  match getSchemeAux s [] s with
  | none => none
  | some (schemeChars, afterScheme) =>
      let scheme := String.mk (schemeChars.map asciiLowerChar)
      let qcut :=
        if afterScheme ≠ [] ∧ afterScheme.getLast? = some '?' ∧ afterScheme.dropLast.all (· ≠ '?') then
          (afterScheme.dropLast, ([] : List Char), true)
        else
          let c := cutChar '?' afterScheme
          (c.1, c.2.1, false)
      let rest := qcut.1
      let rawQuery := String.mk qcut.2.1
      let forceQuery := qcut.2.2
      if leadsWith rest ['/'] then
        if (scheme ≠ "" ∨ ¬ leadsWith rest ['/', '/', '/']) ∧ leadsWith rest ['/', '/'] then
          let afterSlashes := rest.drop 2
          let acut := cutChar '/' afterSlashes
          let auth := acut.1
          let rest2 := if acut.2.2 then '/' :: acut.2.1 else []
          let ah := parseAuthorityGo auth
          some { scheme, opq := "", user := ah.1, host := ah.2, omitHost := false,
                 path := String.mk rest2, forceQuery, rawQuery, fragment := "" }
        else
          some { scheme, opq := "", user := none, host := "", omitHost := scheme ≠ "",
                 path := String.mk rest, forceQuery, rawQuery, fragment := "" }
      else
        if scheme ≠ "" then
          some { scheme, opq := String.mk rest, user := none, host := "", omitHost := false,
                 path := "", forceQuery, rawQuery, fragment := "" }
        else
          if (cutChar '/' rest).1.any (· = ':') then none
          else
            some { scheme, opq := "", user := none, host := "", omitHost := false,
                   path := String.mk rest, forceQuery, rawQuery, fragment := "" }

/-- Go net/url Parse: split the fragment at the first `#`, parse the rest.
An empty fragment is treated as absent, as in Go. -/
def urlParse (s : String) : Option GoUrl :=
  let fcut := cutChar '#' s.data
  match urlParseInner fcut.1 with
  | none => none
  | some u => if fcut.2.1 = [] then some u else some { u with fragment := String.mk fcut.2.1 }

/-- Does the path segment before the first `/` contain a colon?
(RFC 3986 relative-path guard used by URL.String.) -/
def firstSegmentHasColon (p : String) : Bool :=
  (cutChar '/' p.data).1.any (· = ':')

/-- Go net/url URL.String on the escape-free fragment: reassemble
scheme, authority, path, query and fragment. -/
def urlString (u : GoUrl) : String :=
  let schemePart := if u.scheme ≠ "" then u.scheme ++ ":" else ""
  let queryPart := if u.forceQuery ∨ u.rawQuery ≠ "" then "?" ++ u.rawQuery else ""
  let fragPart := if u.fragment ≠ "" then "#" ++ u.fragment else ""
  if u.opq ≠ "" then schemePart ++ u.opq ++ queryPart ++ fragPart
  else
    let authPart :=
      if u.scheme ≠ "" ∨ u.host ≠ "" ∨ u.user.isSome then
        if u.omitHost ∧ u.host = "" ∧ u.user.isNone then ""
        else
          (if u.host ≠ "" ∨ u.path ≠ "" ∨ u.user.isSome then "//" else "")
            ++ (match u.user with | some ui => ui ++ "@" | none => "")
            ++ u.host
      else ""
    let slashPart := if u.path ≠ "" ∧ ¬ goStartsWith u.path "/" ∧ u.host ≠ "" then "/" else ""
    let dotSlash :=
      if schemePart ++ authPart ++ slashPart = "" ∧ firstSegmentHasColon u.path then "./" else ""
    schemePart ++ authPart ++ slashPart ++ dotSlash ++ u.path ++ queryPart ++ fragPart

/-- UrlPathJoin from manifest.go: parse `uri`, join `path` onto its path
component with filepath.Join and reserialize; on a parse error fall back to
a plain filepath.Join. -/
def UrlPathJoin (uri path : String) : String :=
  match urlParse uri with
  | some f => urlString { f with path := goFilepathJoin f.path path }
  | none => goFilepathJoin uri path

example : UrlPathJoin "http://a/b" "/c/d/" = "http://a/b/c/d" := by decide
example : UrlPathJoin "" "p" = "p" := by decide
example : UrlPathJoin "git@github.com:org" "p" = "git@github.com:org/p" := by decide
example : urlParse "git@github.com:org/p" = none := by decide
example : UrlPathJoin "http://h/x?q=1" "p" = "http://h/x/p?q=1" := by decide

/-! ## Environment expander (os.ExpandEnv / os.Expand) -/

/-- The explicit process-environment and user collaborator: variable lookup
(os.Getenv, empty string for unset variables) and the home directory. -/
structure Env where
  vars : String → String
  home : String

/-- Go os.Expand isShellSpecialVar. -/
def isShellSpecialVar (c : Char) : Bool :=
  c == '*' || c == '#' || c == '$' || c == '@' || c == '!' || c == '?' || c == '-' ||
    (decide ('0' ≤ c) && decide (c ≤ '9'))

/-- Go os.Expand isAlphaNum. -/
def isAlphaNumGo (c : Char) : Bool :=
  c == '_' || (decide ('0' ≤ c) && decide (c ≤ '9')) ||
    (decide ('a' ≤ c) && decide (c ≤ 'z')) || (decide ('A' ≤ c) && decide (c ≤ 'Z'))

/-- Longest prefix of alphanumeric/underscore characters (the scan at the
end of Go's getShellName). -/
def scanAlphaNum : List Char → List Char
  | [] => []
  | c :: cs => if isAlphaNumGo c then c :: scanAlphaNum cs else []

/-- The brace-scanning arm of Go's getShellName, applied to the characters
after the opening brace: scan to the closing brace. -/
def braceResult (rest : List Char) : List Char × Nat :=
  match cutChar '}' rest with
  | (pre, _, true) => if pre = [] then ([], 2) else (pre, pre.length + 2)
  | (_, _, false) => ([], 1)

/-- Go os.Expand getShellName: the variable name starting the list and the
number of characters it consumes. -/
def getShellName : List Char → List Char × Nat
  | [] => ([], 0)
  | '{' :: rest =>
      match rest with
      | c1 :: c2 :: _ =>
          if isShellSpecialVar c1 ∧ c2 = '}' then ([c1], 3) else braceResult rest
      | _ => braceResult rest
  | c :: cs =>
      if isShellSpecialVar c then ([c], 1)
      else
        let nm := scanAlphaNum (c :: cs)
        (nm, nm.length)

/-- Go os.Expand over a character list.  The `fuel` argument only bounds
the number of loop steps to make the recursion structural: every step
consumes at least one character, so `fuel := length` never runs out (with
zero fuel the list is already empty and the result is correct anyway). -/
def goExpandAux (mapping : String → String) : Nat → List Char → List Char
  | 0, _ => []
  | _ + 1, [] => []
  | f + 1, '$' :: rest =>
      match rest with
      | [] => ['$']
      | _ :: _ =>
          let nw := getShellName rest
          if nw.1 = [] ∧ nw.2 > 0 then goExpandAux mapping f (rest.drop nw.2)
          else if nw.1 = [] then '$' :: goExpandAux mapping f rest
          else (mapping (String.mk nw.1)).data ++ goExpandAux mapping f (rest.drop nw.2)
  | f + 1, c :: rest => c :: goExpandAux mapping f rest

/-- Go os.ExpandEnv against the environment's variable mapping. -/
def goExpandEnv (env : Env) (s : String) : String :=
  String.mk (goExpandAux env.vars s.data.length s.data)

example :
    goExpandEnv { vars := fun s => if s = "FOO" then "bar" else "", home := "" } "x/$FOO/y" =
      "x/bar/y" := by decide
example :
    goExpandEnv { vars := fun s => if s = "FOO" then "bar" else "", home := "" } "${FOO}$BAZ" =
      "bar" := by decide
example :
    goExpandEnv { vars := fun s => if s = "FOO" then "$BAR" else "", home := "" } "$FOO" =
      "$BAR" := by decide

/-! ## Data model (manifest.go) -/

/-- ManifestRemote from manifest.go. -/
structure ManifestRemote where
  Name : String
  Fetch : String
  SyncConcurrency : Int
deriving Repr, DecidableEq

/-- ManifestBranch from manifest.go (display configuration only). -/
structure ManifestBranch where
  Name : String
  Color : String
  Prefixes : String
deriving Repr, DecidableEq

/-- ManifestConfig from manifest.go. -/
structure ManifestConfig where
  Branches : List ManifestBranch
deriving Repr, DecidableEq

/-- ManifestProject from manifest.go: a project definition node;
`Projects` is the list of nested child definitions. -/
inductive ManifestProject : Type where
  | mk (Name Path Remote Fetch : String) (Projects : List ManifestProject)
       (Revision GroupNames : String) : ManifestProject
deriving Repr

def ManifestProject.Name : ManifestProject → String
  | .mk n _ _ _ _ _ _ => n

def ManifestProject.Path : ManifestProject → String
  | .mk _ p _ _ _ _ _ => p

def ManifestProject.Remote : ManifestProject → String
  | .mk _ _ r _ _ _ _ => r

def ManifestProject.Fetch : ManifestProject → String
  | .mk _ _ _ f _ _ _ => f

def ManifestProject.Projects : ManifestProject → List ManifestProject
  | .mk _ _ _ _ ps _ _ => ps

def ManifestProject.Revision : ManifestProject → String
  | .mk _ _ _ _ _ rev _ => rev

def ManifestProject.GroupNames : ManifestProject → String
  | .mk _ _ _ _ _ _ g => g

/-- The Go zero value ManifestProject{}. -/
def emptyProject : ManifestProject := .mk "" "" "" "" [] "" ""

instance : Inhabited ManifestProject := ⟨emptyProject⟩

/-- expandEnvProject from manifest.go: expand environment-variable
references in every string field of the project (children untouched). -/
def expandEnvProject (env : Env) : ManifestProject → ManifestProject
  | .mk n p r f ps rev g =>
      .mk (goExpandEnv env n) (goExpandEnv env p) (goExpandEnv env r) (goExpandEnv env f)
        ps (goExpandEnv env rev) (goExpandEnv env g)

/-- ManifestProject.SkipInclude from manifest.go: the space-separated
group-name list contains the literal "notdefault". -/
def ManifestProject.SkipInclude (p : ManifestProject) : Bool :=
  (goSplit p.GroupNames ' ').contains "notdefault"

/-- Manifest from manifest.go.  `Default` is the *ManifestProject pointer
(nil = none). -/
structure Manifest where
  Remotes : List ManifestRemote
  Default : Option ManifestProject
  Projects : List ManifestProject
  Config : Option ManifestConfig
deriving Repr

/-- Manifest.GetRemote from manifest.go: first remote with the given name. -/
def Manifest.GetRemote (m : Manifest) (name : String) : Option ManifestRemote :=
  m.Remotes.find? fun r => r.Name == name

/-- fileutil.MustExpandUser, modelled on the external collaborator's
documented behaviour: expand a leading "~" or "~/" to the home directory. -/
def mustExpandUser (home path : String) : String :=
  if path = "~" then home
  else if goStartsWith path "~/" then home ++ String.mk (path.data.drop 1)
  else path

/-! ## Resolution engine (Manifest.GetProjects, manifest.go lines 152-258) -/

/-- The remote-selection step at the top of the loop body (manifest.go
lines 191-199): keep the carried remote when the node names none, look the
name up otherwise; `none` is the "Remote does not exist" skip. -/
def remoteStep (m : Manifest) (remoteName : String) (remote : ManifestRemote) :
    Option ManifestRemote :=
  if remoteName = "" then some remote else m.GetRemote remoteName

/-- The field-merge of one (already env-expanded) definition onto the
(already env-expanded) parent context (manifest.go lines 201-228).
The group-name list computed on lines 222-224 is dead code in the source:
it is discarded by the unconditional write of `pdef.GroupNames` on line
225, so only that write is modelled.  maputil.StructFromMap is assumed to
round-trip the fields faithfully (its error branch only logs and skips). -/
def mergeProject (parent : ManifestProject) (remote : ManifestRemote)
    (pdef : ManifestProject) : ManifestProject :=
  let name := goFilepathJoin parent.Name pdef.Name
  let remoteName := if pdef.Remote ≠ "" then pdef.Remote else parent.Remote
  let revision := if pdef.Revision ≠ "" then pdef.Revision else parent.Revision
  let fetchBase := if parent.Fetch = "" then remote.Fetch else parent.Fetch
  let fetch := UrlPathJoin fetchBase (orString pdef.Fetch pdef.Name)
  let path := UrlPathJoin parent.Path (orString pdef.Path pdef.Name)
  .mk name path remoteName fetch pdef.Projects revision pdef.GroupNames

/-- The last-minute processing before a project is appended (manifest.go
lines 236-248): expand a leading `~` in the path, and append ".git" to the
fetch URL's path component when it parses and does not already end in it. -/
def postProcess (env : Env) (project : ManifestProject) : ManifestProject :=
  let path := mustExpandUser env.home project.Path
  let fetch :=
    match urlParse project.Fetch with
    | some f =>
        let fpath := if goEndsWith f.path ".git" then f.path else f.path ++ ".git"
        urlString { f with path := fpath }
    | none => project.Fetch
  .mk project.Name path project.Remote fetch project.Projects project.Revision
    project.GroupNames

theorem expandEnvProject_Projects (env : Env) (p : ManifestProject) :
    (expandEnvProject env p).Projects = p.Projects := by
  cases p
  rfl

theorem mergeProject_Projects (parent : ManifestProject) (remote : ManifestRemote)
    (pdef : ManifestProject) : (mergeProject parent remote pdef).Projects = pdef.Projects := rfl

theorem sizeOf_Projects_lt (p : ManifestProject) : sizeOf p.Projects < sizeOf p := by
  cases p
  simp [ManifestProject.Projects]
  omega

/-- The project loop of Manifest.GetProjects (manifest.go lines 183-255),
with the parent context already env-expanded on entry (line 181).  `r0` is
`Remotes[0]`, the value the loop-carried `remote` variable is reset to at
every recursion level; `remote` is the current value of that variable,
which earlier iterations may have overwritten.  The recursive call for a
node's children inlines the nested `GetProjects(subprojects, &project)`
call: its non-empty `from` list and non-nil parent select the loop itself,
and its entry-time `expandEnvProject(parent)` acts, through the shared
pointer, on the same `project` value the caller then appends. -/
def getProjectsLoop (m : Manifest) (env : Env) (r0 : ManifestRemote)
    (parent : ManifestProject) (remote : ManifestRemote) :
    List ManifestProject → List ManifestProject
  | [] => []
  | pdef :: rest =>
      let pdefE := expandEnvProject env pdef
      match remoteStep m pdefE.Remote remote with
      | none => getProjectsLoop m env r0 parent remote rest
      | some rem =>
          let project := mergeProject parent rem pdefE
          if project.Projects.isEmpty then
            (if pdefE.SkipInclude then [] else [postProcess env project])
              ++ getProjectsLoop m env r0 parent rem rest
          else
            let project2 := expandEnvProject env project
            getProjectsLoop m env r0 project2 r0 project2.Projects
              ++ (if pdefE.SkipInclude then [] else [postProcess env project2])
              ++ getProjectsLoop m env r0 parent rem rest
termination_by defs => sizeOf defs
decreasing_by
  all_goals
    have h1 := sizeOf_Projects_lt pdef
    simp only [expandEnvProject_Projects, mergeProject_Projects, List.cons.sizeOf_spec]
    omega

/-- Manifest.GetProjects (manifest.go lines 152-258).  The Go receiver is a
pointer and the entry-time `expandEnvProject(parent)` writes through it, so
the function returns both the output list and the Manifest value as left
behind by the call: when called with a nil parent and a non-nil Default,
the Default project is replaced by its env-expansion in place. -/
def Manifest.GetProjects (m : Manifest) (env : Env) (fromList : List ManifestProject)
    (parentArg : Option ManifestProject) : List ManifestProject × Manifest :=
  match m.Remotes with
  | [] => ([], m)
  | r0 :: _ =>
      let root := if fromList.isEmpty then m.Projects else fromList
      match parentArg with
      | some parent =>
          let parentE := expandEnvProject env parent
          (getProjectsLoop m env r0 parentE r0 root, m)
      | none =>
          match m.Default with
          | some d =>
              let dE := expandEnvProject env d
              let m2 : Manifest := { m with Default := some dE }
              (getProjectsLoop m2 env r0 dE r0 root, m2)
          | none =>
              let parentE := expandEnvProject env emptyProject
              (getProjectsLoop m env r0 parentE r0 root, m)

/-! ## Version-control collaborator and lifecycle operations (git.go, manifest.go) -/

/-- The external git/filesystem collaborator as deterministic oracles:
directory existence, and the error result (`none` = success) of each
sub-command the code can run. -/
structure GitWorld where
  dirExists : String → Bool
  checkoutResult : String → String → Option String
  pullResult : String → Option String
  cloneResult : String → String → Option String
  removeAllResult : String → Option String

/-- One git sub-invocation, recorded in the trace of a lifecycle
operation. -/
inductive GitCall where
  | checkout (dir ref : String)
  | pull (dir : String)
  | clone (repository dest : String)
deriving Repr, DecidableEq

/-- Go %q on the strings appearing here (no characters needing escapes). -/
def goQuote (s : String) : String := "\"" ++ s ++ "\""

/-- GitPull from git.go: in an existing directory, `git checkout ref`, and
on success `git pull` unless the ref is empty.  A checkout failure is
wrapped as "checkout failed: ..."; a pull failure is returned as-is. -/
def GitPull (w : GitWorld) (workingDirectory ref : String) : Option String × List GitCall :=
  if w.dirExists workingDirectory then
    match w.checkoutResult workingDirectory ref with
    | none =>
        if ref ≠ "" then
          (w.pullResult workingDirectory,
            [.checkout workingDirectory ref, .pull workingDirectory])
        else (none, [.checkout workingDirectory ref])
    | some e => (some ("checkout failed: " ++ e), [.checkout workingDirectory ref])
  else (some ("no such directory " ++ goQuote workingDirectory), [])

/-- GitClone from git.go with an explicit destination (the only way the
repository calls it). -/
def GitClone (w : GitWorld) (repository destination : String) : Option String × List GitCall :=
  (w.cloneResult repository destination, [.clone repository destination])

/-- ManifestProject.Checkout from manifest.go: pull the requested revision;
if that failed at the checkout step (error prefixed "checkout failed:") and
the caller allows fallback, pull the project's static revision instead.
Returns ((branch now on, error), git-call trace). -/
def ManifestProject.Checkout (w : GitWorld) (p : ManifestProject) (revision : String)
    (useFallback : Bool) : (String × Option String) × List GitCall :=
  match GitPull w p.Path revision with
  | (none, tr) => ((revision, none), tr)
  | (some e, tr) =>
      if useFallback ∧ goStartsWith e "checkout failed:" then
        let second := GitPull w p.Path p.Revision
        ((p.Revision, second.1), tr ++ second.2)
      else (("", some e), tr)

/-- ManifestProject.Clone from manifest.go (the per-project sync step): an
existing working copy is checked out to the project revision WITHOUT
fallback; an unmanaged directory is deleted first only under force;
otherwise clone afresh. -/
def ManifestProject.Clone (w : GitWorld) (p : ManifestProject) (force : Bool) :
    Option String × List GitCall :=
  if w.dirExists p.Path then
    if w.dirExists (goFilepathJoin p.Path ".git") then
      let r := ManifestProject.Checkout w p p.Revision false
      (r.1.2, r.2)
    else if force then
      match w.removeAllResult p.Path with
      | some e => (some e, [])
      | none => GitClone w p.Fetch p.Path
    else (some ("unmanaged directory already exists at " ++ goQuote p.Path), [])
  else GitClone w p.Fetch p.Path

/-- Number of checkout invocations in a trace (used to state that a
checkout was, or was not, retried). -/
def countCheckouts (tr : List GitCall) : Nat :=
  tr.countP fun c => match c with | .checkout _ _ => true | _ => false

/-! ## Concrete inputs used by witnesses and counterexamples -/

/-- An environment with every variable unset. -/
def envNil : Env := { vars := fun _ => "", home := "/home/u" }

def rA : ManifestRemote := ⟨"origin", "http://h", 0⟩

def childC1 : ManifestProject := .mk "child" "" "" "" [] "" ""

def pdefC1 : ManifestProject := .mk "top" "" "" "" [childC1] "" ""

def m1 : Manifest := { Remotes := [rA], Default := none, Projects := [pdefC1], Config := none }

/-- A top-level definition tagged notdefault, with one child. -/
def pdefC2 : ManifestProject := .mk "top" "" "" "" [childC1] "" "notdefault"

/-- A definition naming a remote that does not exist in `m1`. -/
def pdefC9 : ManifestProject := .mk "p" "" "nosuch" "" [] "" ""

def m8 : Manifest := { Remotes := [], Default := none, Projects := [pdefC1], Config := none }

/-- Two remotes and two sibling definitions: the first names the second
remote, the second names none (used against claim C5). -/
def m5 : Manifest :=
  { Remotes := [⟨"r0", "http://a", 0⟩, ⟨"r1", "http://b", 0⟩]
    Default := none
    Projects := [.mk "p1" "" "r1" "" [] "" "", .mk "p2" "" "" "" [] "" ""]
    Config := none }

/-- A leaf definition naming no remote (witness input for claim C5). -/
def pdefC5 : ManifestProject := .mk "p2" "" "" "" [] "" ""

/-- A manifest whose default template contains a variable reference (used
against claims C6 and C7). -/
def m6 : Manifest :=
  { Remotes := [rA]
    Default := some (.mk "$FOO" "" "" "" [] "" "")
    Projects := [.mk "p" "" "" "" [] "" ""]
    Config := none }

def env6 : Env := { vars := fun s => if s = "FOO" then "bar" else "", home := "/home/u" }

/-- An environment where expanding the default template is not idempotent:
FOO expands to a string that itself mentions BAR (used against claim C7). -/
def env7 : Env :=
  { vars := fun s => if s = "FOO" then "$BAR" else if s = "BAR" then "z" else "", home := "/home/u" }

/-- A manifest with an expansion-stable default template (witness input for
the amended claim C7). -/
def m7w : Manifest :=
  { Remotes := [rA]
    Default := some (.mk "base" "" "" "" [] "" "")
    Projects := [.mk "p" "" "" "" [] "" ""]
    Config := none }

/-- A remote with an scp-style fetch string, which net/url refuses to
parse (used against claim C10). -/
def mGit : Manifest :=
  { Remotes := [⟨"origin", "git@github.com:org", 0⟩]
    Default := none
    Projects := [.mk "p" "" "" "" [] "" ""]
    Config := none }

/-- A world where every directory exists and every checkout fails (used
against claim C3). -/
def w3 : GitWorld :=
  { dirExists := fun _ => true
    checkoutResult := fun _ _ => some "exit status 1"
    pullResult := fun _ => none
    cloneResult := fun _ _ => none
    removeAllResult := fun _ => none }

def p3 : ManifestProject := .mk "proj" "wd" "" "http://h/p.git" [] "main" ""

/-- A world where checkouts succeed and pulls fail with a plain exec
error (witness input for claim C4). -/
def w4 : GitWorld :=
  { dirExists := fun _ => true
    checkoutResult := fun _ _ => none
    pullResult := fun _ => some "exit status 1"
    cloneResult := fun _ _ => none
    removeAllResult := fun _ => none }

/-! ## Helper lemmas -/

theorem leadsWith_nil (l : List Char) : leadsWith l [] = true := by
  cases l <;> rfl

theorem leadsWith_append (a b : List Char) : leadsWith (a ++ b) a = true := by
  induction a with
  | nil => exact leadsWith_nil b
  | cons c cs ih => simp [leadsWith, ih]

theorem leadsWith_extend (l p l2 : List Char) (h : leadsWith l p = true) :
    leadsWith (l ++ l2) p = true := by
  induction p generalizing l with
  | nil => exact leadsWith_nil _
  | cons c cs ih =>
      cases l with
      | nil => simp [leadsWith] at h
      | cons x xs =>
          simp only [leadsWith, List.cons_append, Bool.and_eq_true] at h ⊢
          exact ⟨h.1, ih xs h.2⟩

theorem leadsWith_append_eq (a b p : List Char) (h : p.length ≤ a.length) :
    leadsWith (a ++ b) p = leadsWith a p := by
  induction p generalizing a with
  | nil => rw [leadsWith_nil, leadsWith_nil]
  | cons c cs ih =>
      cases a with
      | nil => simp at h
      | cons x xs =>
          simp only [List.length_cons, Nat.add_le_add_iff_right] at h
          simp only [List.cons_append, leadsWith, List.append_eq, ih xs h]

theorem goStartsWith_append_left (s t p : String) (h : goStartsWith s p = true) :
    goStartsWith (s ++ t) p = true := by
  simp only [goStartsWith, String.data_append] at *
  exact leadsWith_extend _ _ _ h

theorem goStartsWith_append_eq (s t p : String) (h : p.length ≤ s.length) :
    goStartsWith (s ++ t) p = goStartsWith s p := by
  simp only [goStartsWith, String.data_append]
  exact leadsWith_append_eq _ _ _ h

theorem goEndsWith_append_right (a b s : String) (h : goEndsWith b s = true) :
    goEndsWith (a ++ b) s = true := by
  simp only [goEndsWith, String.data_append, List.reverse_append] at *
  exact leadsWith_extend _ _ _ h

theorem goEndsWith_self_append (s t : String) : goEndsWith (s ++ t) t = true := by
  simp only [goEndsWith, String.data_append, List.reverse_append]
  exact leadsWith_append _ _

theorem postProcess_fetch_git (env : Env) (q : ManifestProject) (u : GoUrl)
    (hu : urlParse q.Fetch = some u) (h1 : u.opq = "") (h2 : u.forceQuery = false)
    (h3 : u.rawQuery = "") (h4 : u.fragment = "") :
    goEndsWith (postProcess env q).Fetch ".git" = true := by
  have hfp :
      goEndsWith (if goEndsWith u.path ".git" then u.path else u.path ++ ".git") ".git" = true := by
    by_cases hgit : goEndsWith u.path ".git" = true
    · simp [hgit]
    · simp only [hgit, if_neg, Bool.not_eq_true, if_false]
      exact goEndsWith_self_append _ _
  cases q with
  | mk n pth r f ps rev g =>
      simp only [ManifestProject.Fetch] at hu
      simp only [postProcess, ManifestProject.Fetch, ManifestProject.Path, hu]
      simp only [urlString, h1, h2, h3, h4]
      simp only [ne_eq, not_true_eq_false, if_false, Bool.false_eq_true, false_or,
        not_false_eq_true, String.append_empty]
      apply goEndsWith_append_right
      exact hfp

theorem mem_getProjectsLoop_shape (n : Nat) (m : Manifest) (env : Env) (r0 : ManifestRemote)
    (p : ManifestProject) (parent : ManifestProject) (remote : ManifestRemote)
    (defs : List ManifestProject) (hn : sizeOf defs ≤ n)
    (hp : p ∈ getProjectsLoop m env r0 parent remote defs) :
    ∃ q, p = postProcess env q := by
  induction n generalizing parent remote defs with
  | zero =>
      cases defs with
      | nil => simp [getProjectsLoop] at hp
      | cons pdef rest =>
          simp only [List.cons.sizeOf_spec] at hn
          omega
  | succ n ih =>
      cases defs with
      | nil => simp [getProjectsLoop] at hp
      | cons pdef rest =>
          have hrest : sizeOf rest ≤ n := by
            simp only [List.cons.sizeOf_spec] at hn
            have := sizeOf_Projects_lt pdef
            omega
          simp only [getProjectsLoop] at hp
          split at hp
          · exact ih parent remote rest hrest hp
          · next rem hrs =>
              split at hp
              · rcases List.mem_append.mp hp with h1 | h2
                · split at h1
                  · simp at h1
                  · simp only [List.mem_singleton] at h1
                    exact ⟨_, h1⟩
                · exact ih parent rem rest hrest h2
              · rcases List.mem_append.mp hp with h12 | h2
                · rcases List.mem_append.mp h12 with h1 | h3
                  · have hsz :
                        sizeOf (expandEnvProject env
                          (mergeProject parent rem (expandEnvProject env pdef))).Projects ≤ n := by
                      rw [expandEnvProject_Projects, mergeProject_Projects,
                        expandEnvProject_Projects]
                      have h1 := sizeOf_Projects_lt pdef
                      simp only [List.cons.sizeOf_spec] at hn
                      omega
                    exact ih _ _ _ hsz h1
                  · split at h3
                    · simp at h3
                    · simp only [List.mem_singleton] at h3
                      exact ⟨_, h3⟩
                · exact ih parent rem rest hrest h2

theorem countCheckouts_GitPull_pos (w : GitWorld) (dir ref : String)
    (hd : w.dirExists dir = true) : 1 ≤ countCheckouts (GitPull w dir ref).2 := by
  simp only [GitPull, hd, if_true]
  cases w.checkoutResult dir ref with
  | none => by_cases h : ref = "" <;> simp [h, countCheckouts]
  | some e => simp [countCheckouts]

/-! ## Claims -/

/-- C1: for every manifest and every node with a non-empty children list
(whose remote resolves and which is not itself suppressed), the resolved
descriptors of the node's children appear in the output of GetProjects
strictly before the descriptor of the node itself, and the siblings in
`rest` are processed after it, in list order: the output for `pdef :: rest`
is exactly children-output ++ [own descriptor] ++ rest-output. -/
theorem c1_children_before_parent (m : Manifest) (env : Env) (r0 rem remote : ManifestRemote)
    (parent pdef : ManifestProject) (rest : List ManifestProject)
    (hrem : remoteStep m (expandEnvProject env pdef).Remote remote = some rem)
    (hchild : (mergeProject parent rem (expandEnvProject env pdef)).Projects.isEmpty = false)
    (hskip : (expandEnvProject env pdef).SkipInclude = false) :
    getProjectsLoop m env r0 parent remote (pdef :: rest) =
      getProjectsLoop m env r0
          (expandEnvProject env (mergeProject parent rem (expandEnvProject env pdef))) r0
          (expandEnvProject env (mergeProject parent rem (expandEnvProject env pdef))).Projects
        ++ [postProcess env (expandEnvProject env (mergeProject parent rem (expandEnvProject env pdef)))]
        ++ getProjectsLoop m env r0 parent rem rest := by
  simp only [getProjectsLoop, hrem, hchild, hskip]
  simp

/-- C1 witness: a two-level manifest instantiating the theorem. -/
theorem c1_children_before_parent_witness :
    (remoteStep m1 (expandEnvProject envNil pdefC1).Remote rA = some rA
      ∧ (mergeProject emptyProject rA (expandEnvProject envNil pdefC1)).Projects.isEmpty = false
      ∧ (expandEnvProject envNil pdefC1).SkipInclude = false)
    ∧ getProjectsLoop m1 envNil rA emptyProject rA [pdefC1] =
        getProjectsLoop m1 envNil rA
            (expandEnvProject envNil (mergeProject emptyProject rA (expandEnvProject envNil pdefC1))) rA
            (expandEnvProject envNil (mergeProject emptyProject rA (expandEnvProject envNil pdefC1))).Projects
          ++ [postProcess envNil (expandEnvProject envNil (mergeProject emptyProject rA (expandEnvProject envNil pdefC1)))]
          ++ getProjectsLoop m1 envNil rA emptyProject rA [] :=
  ⟨⟨by decide, by decide, by decide⟩,
    c1_children_before_parent m1 envNil rA rA rA emptyProject pdefC1 []
      (by decide) (by decide) (by decide)⟩

/-- C2: a node whose (expanded) group names contain the literal
"notdefault" contributes no descriptor of its own: the output for
`pdef :: rest` is exactly its children's resolution followed by the
rest-output, and every element of the children's resolution is in the
output. -/
theorem c2_notdefault_excludes_node_not_children (m : Manifest) (env : Env)
    (r0 rem remote : ManifestRemote) (parent pdef : ManifestProject)
    (rest : List ManifestProject)
    (hrem : remoteStep m (expandEnvProject env pdef).Remote remote = some rem)
    (hskip : (expandEnvProject env pdef).SkipInclude = true) :
    getProjectsLoop m env r0 parent remote (pdef :: rest) =
      getProjectsLoop m env r0
          (expandEnvProject env (mergeProject parent rem (expandEnvProject env pdef))) r0
          (expandEnvProject env (mergeProject parent rem (expandEnvProject env pdef))).Projects
        ++ getProjectsLoop m env r0 parent rem rest
    ∧ ∀ x ∈ getProjectsLoop m env r0
          (expandEnvProject env (mergeProject parent rem (expandEnvProject env pdef))) r0
          (expandEnvProject env (mergeProject parent rem (expandEnvProject env pdef))).Projects,
        x ∈ getProjectsLoop m env r0 parent remote (pdef :: rest) := by
  have heq : getProjectsLoop m env r0 parent remote (pdef :: rest) =
      getProjectsLoop m env r0
          (expandEnvProject env (mergeProject parent rem (expandEnvProject env pdef))) r0
          (expandEnvProject env (mergeProject parent rem (expandEnvProject env pdef))).Projects
        ++ getProjectsLoop m env r0 parent rem rest := by
    simp only [getProjectsLoop, hrem, hskip]
    by_cases he : (mergeProject parent rem (expandEnvProject env pdef)).Projects.isEmpty
    · have hnil : (expandEnvProject env
          (mergeProject parent rem (expandEnvProject env pdef))).Projects = [] := by
        rw [expandEnvProject_Projects]
        exact List.isEmpty_iff.mp he
      simp [he, hnil, getProjectsLoop]
    · simp [he]
  refine ⟨heq, ?_⟩
  intro x hx
  rw [heq]
  exact List.mem_append_left _ hx

/-- C2 witness: a notdefault-tagged parent with one untagged child. -/
theorem c2_notdefault_excludes_node_not_children_witness :
    (remoteStep m1 (expandEnvProject envNil pdefC2).Remote rA = some rA
      ∧ (expandEnvProject envNil pdefC2).SkipInclude = true)
    ∧ (getProjectsLoop m1 envNil rA emptyProject rA [pdefC2] =
        getProjectsLoop m1 envNil rA
            (expandEnvProject envNil (mergeProject emptyProject rA (expandEnvProject envNil pdefC2))) rA
            (expandEnvProject envNil (mergeProject emptyProject rA (expandEnvProject envNil pdefC2))).Projects
          ++ getProjectsLoop m1 envNil rA emptyProject rA []
      ∧ ∀ x ∈ getProjectsLoop m1 envNil rA
            (expandEnvProject envNil (mergeProject emptyProject rA (expandEnvProject envNil pdefC2))) rA
            (expandEnvProject envNil (mergeProject emptyProject rA (expandEnvProject envNil pdefC2))).Projects,
          x ∈ getProjectsLoop m1 envNil rA emptyProject rA [pdefC2]) :=
  ⟨⟨by decide, by decide⟩,
    c2_notdefault_excludes_node_not_children m1 envNil rA rA rA emptyProject pdefC2 []
      (by decide) (by decide)⟩

/-- C9: a node naming a remote that is not in the remote table is skipped
together with its entire subtree, contributing nothing to the output, and
the siblings in `rest` are resolved exactly as they would be otherwise
(same parent, same carried remote). -/
theorem c9_unknown_remote_skips_node_and_subtree (m : Manifest) (env : Env)
    (r0 remote : ManifestRemote) (parent pdef : ManifestProject) (rest : List ManifestProject)
    (hname : (expandEnvProject env pdef).Remote ≠ "")
    (hlook : m.GetRemote (expandEnvProject env pdef).Remote = none) :
    getProjectsLoop m env r0 parent remote (pdef :: rest) =
      getProjectsLoop m env r0 parent remote rest := by
  have h : remoteStep m (expandEnvProject env pdef).Remote remote = none := by
    simp [remoteStep, hname, hlook]
  simp only [getProjectsLoop, h]

/-- C9 witness: a definition naming the nonexistent remote "nosuch", with
a sibling resolved normally behind it. -/
theorem c9_unknown_remote_skips_node_and_subtree_witness :
    ((expandEnvProject envNil pdefC9).Remote ≠ ""
      ∧ m1.GetRemote (expandEnvProject envNil pdefC9).Remote = none)
    ∧ getProjectsLoop m1 envNil rA emptyProject rA [pdefC9, childC1] =
        getProjectsLoop m1 envNil rA emptyProject rA [childC1] :=
  ⟨⟨by decide, by decide⟩,
    c9_unknown_remote_skips_node_and_subtree m1 envNil rA rA emptyProject pdefC9 [childC1]
      (by decide) (by decide)⟩

/-- C8: a manifest with an empty remote list resolves to no projects at
all, regardless of the project definitions, the `from` list or the parent
argument. -/
theorem c8_no_remotes_no_projects (m : Manifest) (env : Env)
    (fromList : List ManifestProject) (parentArg : Option ManifestProject)
    (h : m.Remotes = []) :
    (Manifest.GetProjects m env fromList parentArg).1 = [] := by
  simp only [Manifest.GetProjects, h]

/-- C8 witness: the remote-less manifest `m8`, which still has a project
definition. -/
theorem c8_no_remotes_no_projects_witness :
    m8.Remotes = [] ∧ (Manifest.GetProjects m8 envNil [] none).1 = [] :=
  ⟨by decide, c8_no_remotes_no_projects m8 envNil [] none (by decide)⟩

/-- C5 counterexample: in `m5` the first sibling names remote "r1"
(fetch "http://b"); the second sibling names no remote, yet its fetch URL
is seeded from "r1", not from remotes[0] ("http://a") as the claim
states. -/
theorem c5_remote_independent_of_siblings_cex :
    (Manifest.GetProjects m5 envNil [] none).1.map ManifestProject.Fetch =
      ["http://b/p1.git", "http://b/p2.git"]
    ∧ ("http://b/p2.git" : String) ≠ "http://a/p2.git" := by
  constructor
  · simp only [Manifest.GetProjects, m5]
    simp only [List.isEmpty_nil, if_pos, List.isEmpty_cons]
    simp only [getProjectsLoop]
    decide
  · decide

/-- C5 amended: for a node whose (expanded) remoteName is empty, the
remote that seeds its fetch URL is the loop-carried remote variable -
reset to remotes[0] at the start of each recursion level but overwritten
by any earlier sibling that names a resolvable remote - and the node
passes that variable unchanged to the remaining siblings. -/
theorem c5_amended_carried_remote_seeds_unnamed (m : Manifest) (env : Env)
    (r0 remote : ManifestRemote) (parent pdef : ManifestProject)
    (rest : List ManifestProject)
    (hname : (expandEnvProject env pdef).Remote = "") :
    getProjectsLoop m env r0 parent remote (pdef :: rest) =
      (if (mergeProject parent remote (expandEnvProject env pdef)).Projects.isEmpty then
        (if (expandEnvProject env pdef).SkipInclude then []
         else [postProcess env (mergeProject parent remote (expandEnvProject env pdef))])
       else
        getProjectsLoop m env r0
            (expandEnvProject env (mergeProject parent remote (expandEnvProject env pdef))) r0
            (expandEnvProject env (mergeProject parent remote (expandEnvProject env pdef))).Projects
          ++ (if (expandEnvProject env pdef).SkipInclude then []
              else [postProcess env (expandEnvProject env (mergeProject parent remote (expandEnvProject env pdef)))]))
      ++ getProjectsLoop m env r0 parent remote rest := by
  have h : remoteStep m (expandEnvProject env pdef).Remote remote = some remote := by
    simp [remoteStep, hname]
  simp only [getProjectsLoop, h]
  by_cases he : (mergeProject parent remote (expandEnvProject env pdef)).Projects.isEmpty
  · simp [he]
  · simp [he]

/-- C5 amended witness: a leaf definition naming no remote, resolved while
the carried remote is "r1" rather than remotes[0]. -/
theorem c5_amended_carried_remote_seeds_unnamed_witness :
    (expandEnvProject envNil pdefC5).Remote = ""
    ∧ getProjectsLoop m5 envNil ⟨"r0", "http://a", 0⟩ emptyProject ⟨"r1", "http://b", 0⟩ [pdefC5] =
        (if (mergeProject emptyProject ⟨"r1", "http://b", 0⟩ (expandEnvProject envNil pdefC5)).Projects.isEmpty then
          (if (expandEnvProject envNil pdefC5).SkipInclude then []
           else [postProcess envNil (mergeProject emptyProject ⟨"r1", "http://b", 0⟩ (expandEnvProject envNil pdefC5))])
         else
          getProjectsLoop m5 envNil ⟨"r0", "http://a", 0⟩
              (expandEnvProject envNil (mergeProject emptyProject ⟨"r1", "http://b", 0⟩ (expandEnvProject envNil pdefC5))) ⟨"r0", "http://a", 0⟩
              (expandEnvProject envNil (mergeProject emptyProject ⟨"r1", "http://b", 0⟩ (expandEnvProject envNil pdefC5))).Projects
            ++ (if (expandEnvProject envNil pdefC5).SkipInclude then []
                else [postProcess envNil (expandEnvProject envNil (mergeProject emptyProject ⟨"r1", "http://b", 0⟩ (expandEnvProject envNil pdefC5)))]))
        ++ getProjectsLoop m5 envNil ⟨"r0", "http://a", 0⟩ emptyProject ⟨"r1", "http://b", 0⟩ [] :=
  ⟨by decide,
    c5_amended_carried_remote_seeds_unnamed m5 envNil ⟨"r0", "http://a", 0⟩
      ⟨"r1", "http://b", 0⟩ emptyProject pdefC5 [] (by decide)⟩

theorem getProjects_snd_eq (m : Manifest) (env : Env) (fromList : List ManifestProject)
    (parentArg : Option ManifestProject) :
    (Manifest.GetProjects m env fromList parentArg).2 =
      match m.Remotes, parentArg, m.Default with
      | [], _, _ => m
      | _ :: _, none, some d => { m with Default := some (expandEnvProject env d) }
      | _, _, _ => m := by
  cases hr : m.Remotes with
  | nil => simp [Manifest.GetProjects, hr]
  | cons r0 rs =>
      cases parentArg with
      | some parent => simp [Manifest.GetProjects, hr]
      | none =>
          cases hd : m.Default with
          | some d => simp [Manifest.GetProjects, hr, hd]
          | none => simp [Manifest.GetProjects, hr, hd]

/-- C6 counterexample: resolving `m6` (default template named "$FOO")
under an environment where FOO=bar changes the manifest's default template
in place - the Go code passes the Default pointer to expandEnvProject. -/
theorem c6_resolution_mutates_manifest_cex :
    (Manifest.GetProjects m6 env6 [] none).2.Default.map ManifestProject.Name ≠
      m6.Default.map ManifestProject.Name := by decide

/-- C6 amended: resolution leaves the manifest's remotes, project tree and
branch config untouched, and with a parent argument or an absent default
template (or no remotes at all) the whole manifest value is unchanged; but
when called with a nil parent and a present default template it replaces
that template by its environment-expansion in place. -/
theorem c6_amended_mutates_only_default (m : Manifest) (env : Env)
    (fromList : List ManifestProject) (parentArg : Option ManifestProject) :
    (Manifest.GetProjects m env fromList parentArg).2 =
      match m.Remotes, parentArg, m.Default with
      | [], _, _ => m
      | _ :: _, none, some d => { m with Default := some (expandEnvProject env d) }
      | _, _, _ => m :=
  getProjects_snd_eq m env fromList parentArg

/-- C7 counterexample: two successive GetProjects calls on the same
manifest value, with nothing modified in between, give different outputs:
the first call expands the default template "$FOO" to "$BAR" in place
(FOO="$BAR" in the environment), so the second call resolves names from
"$BAR", which expands further to "z". -/
theorem c7_two_successive_calls_differ_cex :
    (Manifest.GetProjects (Manifest.GetProjects m6 env7 [] none).2 env7 [] none).1.map
        ManifestProject.Name ≠
      (Manifest.GetProjects m6 env7 [] none).1.map ManifestProject.Name := by
  rw [getProjects_snd_eq]
  simp only [m6, Manifest.GetProjects]
  simp only [List.isEmpty_nil, if_pos, List.isEmpty_cons]
  simp only [getProjectsLoop]
  decide

/-- C7 amended: GetProjects is a pure function of the manifest value and
the environment, so two runs agree whenever the first call leaves the
manifest unchanged - in particular whenever expanding the default template
is idempotent (for example, when its expansion contains no further
variable references).  Without that proviso the first call's in-place
expansion of the default template can change the second call's output. -/
theorem c7_amended_two_runs_agree (m : Manifest) (env : Env)
    (h : ∀ d, m.Default = some d →
        expandEnvProject env (expandEnvProject env d) = expandEnvProject env d) :
    (Manifest.GetProjects (Manifest.GetProjects m env [] none).2 env [] none).1 =
      (Manifest.GetProjects m env [] none).1 := by
  cases hr : m.Remotes with
  | nil => simp [Manifest.GetProjects, hr]
  | cons r0 rs =>
      cases hd : m.Default with
      | none => simp [Manifest.GetProjects, hr, hd]
      | some d =>
          have hidem := h d hd
          simp [Manifest.GetProjects, hr, hd, hidem]

/-- C7 amended witness: a manifest whose default template is
expansion-stable; two successive runs give the same list. -/
theorem c7_amended_two_runs_agree_witness :
    (∀ d, m7w.Default = some d →
        expandEnvProject envNil (expandEnvProject envNil d) = expandEnvProject envNil d)
    ∧ (Manifest.GetProjects (Manifest.GetProjects m7w envNil [] none).2 envNil [] none).1 =
        (Manifest.GetProjects m7w envNil [] none).1 := by
  have h : ∀ d, m7w.Default = some d →
      expandEnvProject envNil (expandEnvProject envNil d) = expandEnvProject envNil d := by
    intro d hd
    simp only [m7w] at hd
    injection hd with h2
    subst h2
    rfl
  exact ⟨h, c7_amended_two_runs_agree m7w envNil h⟩

/-- C10 counterexample: with the common scp-style remote fetch string
"git@github.com:org", net/url refuses to parse the joined fetch (colon in
the first path segment), the ".git"-appending step is skipped, and the
emitted fetch URL does not end in ".git". -/
theorem c10_fetch_ends_git_cex :
    (Manifest.GetProjects mGit envNil [] none).1.map ManifestProject.Fetch =
      ["git@github.com:org/p"]
    ∧ goEndsWith "git@github.com:org/p" ".git" = false := by
  constructor
  · simp only [Manifest.GetProjects, mGit]
    simp only [List.isEmpty_nil, if_pos, List.isEmpty_cons]
    simp only [getProjectsLoop]
    decide
  · decide

/-- C10 amended: every emitted descriptor is the post-processing of a
merged project, and whenever the merged fetch string parses as a URL with
no opaque part, no query and no fragment, the emitted fetch string ends in
".git" (the post-processing appends it to the URL's path component when it
is not already there; an unparseable fetch is emitted unchanged, and a
query or fragment is serialized after the ".git"-suffixed path). -/
theorem c10_amended_fetch_git (m : Manifest) (env : Env) (r0 remote : ManifestRemote)
    (parent p : ManifestProject) (defs : List ManifestProject)
    (hp : p ∈ getProjectsLoop m env r0 parent remote defs) :
    ∃ q, p = postProcess env q ∧
      ∀ u, urlParse q.Fetch = some u → u.opq = "" → u.forceQuery = false →
        u.rawQuery = "" → u.fragment = "" → goEndsWith p.Fetch ".git" = true := by
  obtain ⟨q, hq⟩ :=
    mem_getProjectsLoop_shape (sizeOf defs) m env r0 p parent remote defs le_rfl hp
  refine ⟨q, hq, ?_⟩
  intro u hu h1 h2 h3 h4
  rw [hq]
  exact postProcess_fetch_git env q u hu h1 h2 h3 h4

/-- C10 amended witness: the single emitted descriptor of a one-project
manifest, whose fetch URL "http://h/child.git" indeed ends in ".git". -/
theorem c10_amended_fetch_git_witness :
    postProcess envNil (mergeProject (expandEnvProject envNil emptyProject) rA
        (expandEnvProject envNil childC1))
      ∈ getProjectsLoop m1 envNil rA (expandEnvProject envNil emptyProject) rA [childC1]
    ∧ ∃ q, postProcess envNil (mergeProject (expandEnvProject envNil emptyProject) rA
          (expandEnvProject envNil childC1)) = postProcess envNil q ∧
        ∀ u, urlParse q.Fetch = some u → u.opq = "" → u.forceQuery = false →
          u.rawQuery = "" → u.fragment = "" →
          goEndsWith (postProcess envNil (mergeProject (expandEnvProject envNil emptyProject) rA
            (expandEnvProject envNil childC1))).Fetch ".git" = true := by
  have hrs : remoteStep m1 (expandEnvProject envNil childC1).Remote rA = some rA := by decide
  have he : (mergeProject (expandEnvProject envNil emptyProject) rA
      (expandEnvProject envNil childC1)).Projects.isEmpty = true := by decide
  have hs : (expandEnvProject envNil childC1).SkipInclude = false := by decide
  have hmem : postProcess envNil (mergeProject (expandEnvProject envNil emptyProject) rA
      (expandEnvProject envNil childC1))
      ∈ getProjectsLoop m1 envNil rA (expandEnvProject envNil emptyProject) rA [childC1] := by
    simp only [getProjectsLoop, hrs, he, hs]
    simp
  exact ⟨hmem,
    c10_amended_fetch_git m1 envNil rA rA (expandEnvProject envNil emptyProject) _ [childC1] hmem⟩

/-- C3 counterexample: in a world where the working copy exists and the
checkout of the configured revision fails, Clone performs a single
checkout attempt, while a checkout with fallback enabled would retry - so
Clone is not the fallback-enabled checkout the claim describes (the error
results coincide here, but the performed git calls do not). -/
theorem c3_clone_checkout_fallback_cex :
    ManifestProject.Clone w3 p3 false ≠
      ((ManifestProject.Checkout w3 p3 p3.Revision true).1.2,
        (ManifestProject.Checkout w3 p3 p3.Revision true).2) := by decide

/-- C3 amended: when the project path exists and contains a .git working
copy, Clone performs a checkout of the project's own configured revision
with fallback DISABLED, and returns that checkout's error result (and
exactly its git calls). -/
theorem c3_amended_clone_checks_out_without_fallback (w : GitWorld) (p : ManifestProject)
    (force : Bool) (h1 : w.dirExists p.Path = true)
    (h2 : w.dirExists (goFilepathJoin p.Path ".git") = true) :
    ManifestProject.Clone w p force =
      ((ManifestProject.Checkout w p p.Revision false).1.2,
        (ManifestProject.Checkout w p p.Revision false).2) := by
  simp [ManifestProject.Clone, h1, h2]

/-- C3 amended witness: the all-directories-exist, checkout-fails world. -/
theorem c3_amended_clone_checks_out_without_fallback_witness :
    (w3.dirExists p3.Path = true ∧ w3.dirExists (goFilepathJoin p3.Path ".git") = true)
    ∧ ManifestProject.Clone w3 p3 false =
        ((ManifestProject.Checkout w3 p3 p3.Revision false).1.2,
          (ManifestProject.Checkout w3 p3 p3.Revision false).2) :=
  ⟨⟨by decide, by decide⟩,
    c3_amended_clone_checks_out_without_fallback w3 p3 false (by decide) (by decide)⟩

/-- C4: with fallback enabled, Checkout retries with the project's static
revision exactly when the first attempt failed at the checkout
(revision-selection) step - never on a pull failure or a missing
directory, granted that the external collaborator's pull errors are not
themselves prefixed "checkout failed:" - and on such a failure the result
is the static revision paired with the fallback pull-sequence's error
result (none on success), after a trace of the failed checkout followed by
the fallback's git calls. -/
theorem c4_fallback_iff_checkout_step_failure (w : GitWorld) (p : ManifestProject)
    (rev : String)
    (hpull : ∀ d e, w.pullResult d = some e → goStartsWith e "checkout failed:" = false) :
    ((2 ≤ countCheckouts (ManifestProject.Checkout w p rev true).2) ↔
      (w.dirExists p.Path = true ∧ w.checkoutResult p.Path rev ≠ none))
    ∧ (∀ e, w.dirExists p.Path = true → w.checkoutResult p.Path rev = some e →
        ManifestProject.Checkout w p rev true =
          ((p.Revision, (GitPull w p.Path p.Revision).1),
            GitCall.checkout p.Path rev :: (GitPull w p.Path p.Revision).2)) := by
  constructor
  · cases hd : w.dirExists p.Path with
    | false =>
        simp [ManifestProject.Checkout, GitPull, hd, countCheckouts, goStartsWith, leadsWith]
    | true =>
        cases hc : w.checkoutResult p.Path rev with
        | none =>
            by_cases hrev : rev = ""
            · subst hrev
              simp [ManifestProject.Checkout, GitPull, hd, hc, countCheckouts]
            · cases hp2 : w.pullResult p.Path with
              | none =>
                  simp [ManifestProject.Checkout, GitPull, hd, hc, hrev, hp2, countCheckouts]
              | some e =>
                  have hnp := hpull p.Path e hp2
                  simp [ManifestProject.Checkout, GitPull, hd, hc, hrev, hp2, hnp,
                    countCheckouts]
        | some e =>
            have hpre : goStartsWith ("checkout failed: " ++ e) "checkout failed:" = true :=
              goStartsWith_append_left _ _ _ (by decide)
            by_cases hrev2 : p.Revision = ""
            · cases hc2 : w.checkoutResult p.Path p.Revision with
              | none =>
                  rw [hrev2] at hc2
                  simp [ManifestProject.Checkout, GitPull, hd, hc, hpre, hrev2, hc2,
                    countCheckouts]
              | some e2 =>
                  rw [hrev2] at hc2
                  simp [ManifestProject.Checkout, GitPull, hd, hc, hpre, hrev2, hc2,
                    countCheckouts]
            · cases hc2 : w.checkoutResult p.Path p.Revision with
              | none =>
                  simp [ManifestProject.Checkout, GitPull, hd, hc, hpre, hrev2, hc2,
                    countCheckouts]
              | some e2 =>
                  simp [ManifestProject.Checkout, GitPull, hd, hc, hpre, hrev2, hc2,
                    countCheckouts]
  · intro e hd hc
    have hpre : goStartsWith ("checkout failed: " ++ e) "checkout failed:" = true :=
      goStartsWith_append_left _ _ _ (by decide)
    simp [ManifestProject.Checkout, GitPull, hd, hc, hpre]

/-- C4 witness: a world where checkouts succeed and pulls fail with a
plain exec error: no retry happens (count of checkout calls stays 1), and
the second conjunct is vacuous. -/
theorem c4_fallback_iff_checkout_step_failure_witness :
    (∀ d e, w4.pullResult d = some e → goStartsWith e "checkout failed:" = false)
    ∧ (((2 ≤ countCheckouts (ManifestProject.Checkout w4 p3 "feature-x" true).2) ↔
        (w4.dirExists p3.Path = true ∧ w4.checkoutResult p3.Path "feature-x" ≠ none))
      ∧ (∀ e, w4.dirExists p3.Path = true → w4.checkoutResult p3.Path "feature-x" = some e →
          ManifestProject.Checkout w4 p3 "feature-x" true =
            ((p3.Revision, (GitPull w4 p3.Path p3.Revision).1),
              GitCall.checkout p3.Path "feature-x" :: (GitPull w4 p3.Path p3.Revision).2))) := by
  have h : ∀ d e, w4.pullResult d = some e → goStartsWith e "checkout failed:" = false := by
    intro d e he
    injection he with h2
    subst h2
    decide
  exact ⟨h, c4_fallback_iff_checkout_step_failure w4 p3 "feature-x" h⟩
